import Mathlib

/-!
Verification development for the bcrypt dictionary cracker in
`Module4/task2_bcrypt_cracker.py`.

The Python source is shallowly embedded below.  Python strings are Lean
`String`s (lists of characters); the Python primitives used by the source
(`str.strip`, `str.split`, `str.lower`, slicing, `int(...)`) are embedded as
structural Lean functions over `List Char` restricted to the ASCII behaviour
the program relies on.  `bcrypt.checkpw` / `bcrypt.hashpw` comparisons are
opaque, expensive boolean oracles in the source design, so the crackers are
parameterised by an abstract `check : String → Bool` oracle (for a fixed
target reference) or `check : String → String → Bool` (reference first).
Wall-clock timing, logging and file persistence are side channels dropped by
the embedding; `time` fields of result dictionaries are omitted.
-/

/-- Embedding of Python `str.split(sep)` for a single-character separator,
acting on the character list: `splitChar c l` cuts `l` at every occurrence
of `c` (occurrences are consumed), always returning at least one piece. -/
def splitChar (c : Char) : List Char → List (List Char)
  | [] => [[]]
  | x :: xs =>
    match splitChar c xs with
    | [] => [[]]
    | h :: t => if x = c then [] :: h :: t else (x :: h) :: t

/-- Python `s.split(c)` on strings (single-character separator). -/
def pySplit (s : String) (c : Char) : List String :=
  (splitChar c s.data).map String.mk

/-- The inverse gluing of `splitChar`: interleave the separator between
the pieces.  Used to reconstruct a string from its split. -/
def joinSep (c : Char) : List (List Char) → List Char
  | [] => []
  | [x] => x
  | x :: xs => x ++ c :: joinSep c xs

/-- ASCII whitespace recognised by Python `str.strip()`. -/
def isPySpace (c : Char) : Bool :=
  c == ' ' || c == '\t' || c == '\n' || c == '\r' || c == '\x0c' || c == '\x0b'

/-- Embedding of Python `str.strip()`: remove leading and trailing
whitespace. -/
def pyStrip (s : String) : String :=
  ⟨((s.data.dropWhile isPySpace).reverse.dropWhile isPySpace).reverse⟩

/-- Python slicing `s[:n]` (by characters). -/
def strTake (s : String) (n : Nat) : String := ⟨s.data.take n⟩

/-- Python slicing `s[n:]` (by characters). -/
def strDrop (s : String) (n : Nat) : String := ⟨s.data.drop n⟩

/-- Decimal value of a digit list (digits already validated). -/
def digitsVal (ds : List Char) : Nat :=
  ds.foldl (fun a c => a * 10 + (c.toNat - 48)) 0

/-- Embedding of Python `int(s)` restricted to ASCII decimal literals:
surrounding whitespace is stripped, one optional sign is allowed, and the
remainder must be a nonempty run of digits; any other input raises
`ValueError`, modelled as `none`. -/
def pyInt (s : String) : Option Int :=
  match ((s.data.dropWhile isPySpace).reverse.dropWhile isPySpace).reverse with
  | [] => none
  | '-' :: ds =>
    if ds.isEmpty || !ds.all Char.isDigit then none
    else some (-(digitsVal ds : Int))
  | '+' :: ds =>
    if ds.isEmpty || !ds.all Char.isDigit then none
    else some ((digitsVal ds : Int))
  | ds =>
    if !ds.all Char.isDigit then none
    else some ((digitsVal ds : Int))

/-- Embedding of Python `str.lower()` (ASCII): lower-case every character
using the `A`-`Z` to `a`-`z` shift. -/
def pyLower (s : String) : String := ⟨s.data.map Char.toLower⟩

/-- Lexicographic strict comparison of character lists by code point —
the ordering Python uses to compare and sort strings. -/
def strLtb : List Char → List Char → Bool
  | [], [] => false
  | [], _ :: _ => true
  | _ :: _, [] => false
  | a :: as, b :: bs => if a < b then true else if b < a then false else strLtb as bs

/-- String comparison wrapper for `strLtb`. -/
def strCmp (s t : String) : Bool := strLtb s.data t.data

/-- Strict comparison on `Int`, as a boolean. -/
def intLtb (a b : Int) : Bool := decide (a < b)

/-- Insert an element into a list so that everything strictly
`ltb`-smaller stays in front of it (insertion step of insertion sort). -/
def insertSortedBy {α : Type} (ltb : α → α → Bool) (x : α) : List α → List α
  | [] => [x]
  | y :: ys => if ltb y x then y :: insertSortedBy ltb x ys else x :: y :: ys

/-- Comparison sort by repeated insertion; embeds Python `sorted(...)`
(on inputs without duplicates the result is independent of stability). -/
def sortBy {α : Type} (ltb : α → α → Bool) (l : List α) : List α :=
  l.foldr (insertSortedBy ltb) []

/-- The structured record produced by `parse_shadow_entry` (the Python dict
with keys `user`, `algorithm`, `workfactor`, `salt`, `bcrypt_salt`, `hash`,
`full_hash`). -/
structure ShadowEntry where
  user : String
  algorithm : String
  workfactor : Int
  salt : String
  bcrypt_salt : String
  hash : String
  full_hash : String
deriving DecidableEq, Repr

/-- Embedding of `parse_shadow_entry` (task2_bcrypt_cracker.py, lines
83-127).  `Except Unit _` models the possibility of an uncaught Python
exception: `.error ()` is the `ValueError` raised by `int(hash_parts[2])`
on a non-integer cost field, `.ok none` is an explicit `return None`
(the line is skipped), `.ok (some e)` is a parsed record. -/
def parse_shadow_entry (line : String) : Except Unit (Option ShadowEntry) :=
  let stripped := pyStrip line
  if stripped.data.isEmpty then .ok none
  else
    match pySplit stripped ':' with
    | [user, full_hash] =>
      let hash_parts := pySplit full_hash '$'
      if hash_parts.length < 4 then .ok none
      else
        let algorithm := hash_parts.getD 1 ""
        let costField := hash_parts.getD 2 ""
        match pyInt costField with
        | none => .error ()
        | some workfactor =>
          let salt_hash := hash_parts.getD 3 ""
          let salt := strTake salt_hash 22
          let hash_value := strDrop salt_hash 22
          let bcrypt_salt := "$" ++ algorithm ++ "$" ++ costField ++ "$" ++ salt
          .ok (some { user := user, algorithm := algorithm,
                      workfactor := workfactor, salt := salt,
                      bcrypt_salt := bcrypt_salt, hash := hash_value,
                      full_hash := full_hash })
    | _ => .ok none

/-- The per-line loop of `parse_shadow_file` (lines 417-420): parse each
line, keep the truthy results, and let an uncaught exception abort the
whole batch. -/
def parse_lines : List String → Except Unit (List ShadowEntry)
  | [] => .ok []
  | l :: ls =>
    match parse_shadow_entry l with
    | .error e => .error e
    | .ok none => parse_lines ls
    | .ok (some entry) =>
      match parse_lines ls with
      | .error e => .error e
      | .ok rest => .ok (entry :: rest)

/-- Embedding of `parse_shadow_file` on in-memory content (lines 405-422):
`content.strip().split('\n')` then the per-line loop. -/
def parse_shadow_file (content : String) : Except Unit (List ShadowEntry) :=
  parse_lines (pySplit (pyStrip content) '\n')

/-- Embedding of `get_nltk_words` (lines 130-164) with the external NLTK
word list abstracted as the input `word_list`: filter by original length
within `[min_length, max_length]`, lower-case, then
`sorted(list(set(...)))` — deduplicate and sort lexicographically. -/
def get_nltk_words (word_list : List String) (min_length max_length : Nat) : List String :=
  sortBy strCmp
    (((word_list.filter
        (fun w => decide (min_length ≤ w.length) && decide (w.length ≤ max_length))).map
      pyLower).dedup)

/-- The scanning loop of `crack_single_user` (lines 202-222) with the
enumerate index made explicit: return `(word, index + 1)` at the first
oracle hit.  Timing and progress printing are dropped. -/
def crack_single_loop (check : String → Bool) : List String → Nat → Option (String × Nat)
  | [], _ => none
  | word :: rest, i =>
    if check word then some (word, i + 1) else crack_single_loop check rest (i + 1)

/-- Embedding of `crack_single_user`: scan the word list from index 0. -/
def crack_single_user (check : String → Bool) (word_list : List String) :
    Option (String × Nat) :=
  crack_single_loop check word_list 0

/-- Embedding of `crack_worker_chunk` (lines 225-234): scan one chunk,
returning `(word, start_index + i)` at the first hit; oracle exceptions
are already absorbed into the boolean oracle (the `except: pass`). -/
def crack_worker_chunk (check : String → Bool) : List String → Nat → Option (String × Nat)
  | [], _ => none
  | word :: rest, idx =>
    if check word then some (word, idx) else crack_worker_chunk check rest (idx + 1)

/-- The chunk index ranges built by `crack_user_parallel` (lines 243-252):
`chunk_size = len // num_processes` (bumped to 1 when zero); chunk `i`
starts at `i * chunk_size`, ends at `start + chunk_size` except that the
last chunk ends at `len`; chunks starting beyond the corpus are dropped. -/
def chunkRanges (L N : Nat) : List (Nat × Nat) :=
  let cs0 := L / N
  let chunk_size := if cs0 = 0 then 1 else cs0
  (List.range N).filterMap (fun i =>
    let start := i * chunk_size
    let e := if i < N - 1 then start + chunk_size else L
    if start < L then some (start, e) else none)

/-- The worker argument list of `crack_user_parallel`: the word-list slice
`word_list[start:end]` paired with its global start index. -/
def chunkArgs (word_list : List String) (N : Nat) : List (List String × Nat) :=
  (chunkRanges word_list.length N).map
    (fun r => ((word_list.drop r.1).take (r.2 - r.1), r.1))

/-- The result-collection loop of `crack_user_parallel` (lines 260-264):
walk the pool results in dispatch order and return the first non-`None`
one.  (`Pool.map` returns results in argument order, independently of
which worker finishes first.) -/
def firstHit : List (Option (String × Nat)) → Option (String × Nat)
  | [] => none
  | some r :: _ => some r
  | none :: rest => firstHit rest

/-- Embedding of `crack_user_parallel` (lines 237-266): chunk the corpus,
run `crack_worker_chunk` on every chunk, take the first reported hit in
chunk order, and return `(password, word_idx + 1)`.  Elapsed time is
dropped. -/
def crack_user_parallel (check : String → Bool) (word_list : List String)
    (num_processes : Nat) : Option (String × Nat) :=
  match firstHit ((chunkArgs word_list num_processes).map
      (fun a => crack_worker_chunk check a.1 a.2)) with
  | some (password, word_idx) => some (password, word_idx + 1)
  | none => none

/-- Specification-side scanner: the first word of the list accepted by the
oracle, together with its 0-based index.  All cracker variants are proved
equal to (shifts of) this function. -/
def leastHit (check : String → Bool) : List String → Option (String × Nat)
  | [] => none
  | w :: ws =>
    if check w then some (w, 0)
    else (leastHit check ws).map (fun p => (p.1, p.2 + 1))

/-- The result dictionary appended by the orchestrators (keys `user`,
`password`, `attempts`, `workfactor`; the `time` key is dropped). -/
structure CrackResult where
  user : String
  password : Option String
  attempts : Nat
  workfactor : Int
deriving DecidableEq, Repr

/-- One step of the `workfactor_groups` dict construction (lines 282-287 /
339-344): append the entry to its workfactor's bucket, creating the bucket
at the end on first sight (Python dicts preserve insertion order). -/
def addEntry (groups : List (Int × List ShadowEntry)) (e : ShadowEntry) :
    List (Int × List ShadowEntry) :=
  if groups.any (fun g => g.1 == e.workfactor) then
    groups.map (fun g => if g.1 == e.workfactor then (g.1, g.2 ++ [e]) else g)
  else groups ++ [(e.workfactor, [e])]

/-- The `workfactor_groups` dict as an insertion-ordered association list. -/
def groupByWorkfactor (entries : List ShadowEntry) : List (Int × List ShadowEntry) :=
  entries.foldl addEntry []

/-- Dict lookup `workfactor_groups[wf]` (keys built by `addEntry` are
unique, so `find?` retrieves the bucket). -/
def lookupGroup (groups : List (Int × List ShadowEntry)) (k : Int) : List ShadowEntry :=
  match groups.find? (fun g => g.1 == k) with
  | some g => g.2
  | none => []

/-- `sorted(workfactor_groups.keys())` (lines 290 / 347). -/
def sortedWfKeys (entries : List ShadowEntry) : List Int :=
  sortBy intLtb ((groupByWorkfactor entries).map Prod.fst)

/-- The group iteration order of both orchestrators:
`for workfactor in sorted(workfactor_groups.keys())`, pairing each key
with its bucket. -/
def sortedGroups (entries : List ShadowEntry) : List (Int × List ShadowEntry) :=
  (sortedWfKeys entries).map (fun k => (k, lookupGroup (groupByWorkfactor entries) k))

/-- Embedding of `crack_by_workfactor_group_parallel` (lines 269-328):
group by workfactor, walk groups in ascending key order, and for each
entry run `crack_user_parallel`, appending the found / not-found result
dictionary.  The oracle takes the entry's `full_hash` first. -/
def crack_by_workfactor_group_parallel (check : String → String → Bool)
    (entries : List ShadowEntry) (word_list : List String)
    (num_processes : Nat) : List CrackResult :=
  (sortedGroups entries).flatMap (fun g =>
    g.2.map (fun e =>
      match crack_user_parallel (check e.full_hash) word_list num_processes with
      | some (password, attempts) =>
        { user := e.user, password := some password,
          attempts := attempts, workfactor := g.1 }
      | none =>
        { user := e.user, password := none,
          attempts := word_list.length, workfactor := g.1 }))

/-- The `remaining = {e['user']: e for e in group}` dict (line 354):
keyed by user, insertion order of first occurrence, value overwritten by
the last entry with that user. -/
def dictByUser (group : List ShadowEntry) : List (String × ShadowEntry) :=
  group.foldl (fun acc e =>
    if acc.any (fun p => p.1 == e.user) then
      acc.map (fun p => if p.1 == e.user then (p.1, e) else p)
    else acc ++ [(e.user, e)]) []

/-- The word loop of `crack_by_workfactor_group` (lines 358-400): for each
word, every remaining user whose oracle accepts it gets a result with
attempts `i + 1` and is removed; users remaining after the loop get a
not-found result with attempts equal to the corpus length.  (The early
`break` on an empty `remaining` does not change the emitted results.) -/
def groupLoop (check : String → String → Bool) (wf : Int) (total : Nat) :
    List String → Nat → List (String × ShadowEntry) → List CrackResult
  | [], _, remaining =>
    remaining.map (fun p =>
      { user := p.1, password := none, attempts := total, workfactor := wf })
  | word :: rest, i, remaining =>
    let found := remaining.filter (fun p => check p.2.full_hash word)
    let still := remaining.filter (fun p => !(check p.2.full_hash word))
    found.map (fun p =>
      { user := p.1, password := some word, attempts := i + 1, workfactor := wf })
      ++ groupLoop check wf total rest (i + 1) still

/-- Embedding of `crack_by_workfactor_group` (lines 331-402): group by
workfactor, walk groups in ascending key order, and run the shared word
loop over each group's user dict. -/
def crack_by_workfactor_group (check : String → String → Bool)
    (entries : List ShadowEntry) (word_list : List String) : List CrackResult :=
  (sortedGroups entries).flatMap (fun g =>
    groupLoop check g.1 word_list.length word_list 0 (dictByUser g.2))

/-- Contiguous-coverage predicate on index ranges: `ChainCover s rs e`
says the ranges in `rs` are exactly the half-open intervals tiling
`[s, e)` in order, meeting end-to-start with no gap or overlap. -/
def ChainCover (s : Nat) : List (Nat × Nat) → Nat → Prop
  | [], e => s = e
  | r :: rest, e => r.1 = s ∧ s ≤ r.2 ∧ ChainCover r.2 rest e

/-- Per-record specification of a crack result: correct user and
workfactor; on a hit, the password is the first oracle-accepted corpus
word and attempts its 1-based position; otherwise no password and
attempts equal to the corpus length. -/
def resultMatchesSpec (check : String → String → Bool) (word_list : List String)
    (e : ShadowEntry) (r : CrackResult) : Prop :=
  r.user = e.user ∧ r.workfactor = e.workfactor ∧
    (match leastHit (check e.full_hash) word_list with
     | some p => r.password = some p.1 ∧ r.attempts = p.2 + 1
     | none => r.password = none ∧ r.attempts = word_list.length)

/-- Demo oracle for concrete witnesses: accepts exactly two corpus words. -/
def demoCheck (w : String) : Bool := w == "bbbb" || w == "cccc"

/-- Demo corpus for concrete witnesses. -/
def demoCorpus : List String := ["aaaa", "bbbb", "cccc", "dddd"]

/-- Demo oracle with an explicit reference argument, for orchestrator
witnesses: reference `"refA"` is cracked by `"cccc"`, nothing else. -/
def demoOracle (full_hash w : String) : Bool := full_hash == "refA" && w == "cccc"

/-- Demo credential records for orchestrator witnesses (two workfactors,
given in descending order to exercise the sort). -/
def demoEntries : List ShadowEntry :=
  [{ user := "Kili", algorithm := "2b", workfactor := 9, salt := "S1",
     bcrypt_salt := "$2b$9$S1", hash := "H1", full_hash := "refA" },
   { user := "Fili", algorithm := "2b", workfactor := 8, salt := "S2",
     bcrypt_salt := "$2b$8$S2", hash := "H2", full_hash := "refB" }]

/-! ### Generic insertion-sort correctness -/

theorem perm_insertSortedBy {α : Type} (ltb : α → α → Bool) (x : α) (l : List α) :
    (insertSortedBy ltb x l).Perm (x :: l) := by
  induction l with
  | nil => exact List.Perm.refl _
  | cons y ys ih =>
    simp only [insertSortedBy]
    split
    · exact (ih.cons y).trans (List.Perm.swap x y ys)
    · exact List.Perm.refl _

theorem pairwise_insertSortedBy {α : Type} (ltb : α → α → Bool)
    (htrans : ∀ a b c, ltb a b = true → ltb b c = true → ltb a c = true)
    (hconn : ∀ a b, a ≠ b → ltb a b = true ∨ ltb b a = true)
    (x : α) (l : List α) (hx : x ∉ l)
    (hl : l.Pairwise (fun a b => ltb a b = true)) :
    (insertSortedBy ltb x l).Pairwise (fun a b => ltb a b = true) := by
  induction l with
  | nil => simp [insertSortedBy]
  | cons y ys ih =>
    rcases List.pairwise_cons.mp hl with ⟨hy, hys⟩
    have hxy : x ≠ y := by
      intro h; exact hx (h ▸ List.mem_cons_self y ys)
    have hxys : x ∉ ys := fun h => hx (List.mem_cons_of_mem y h)
    simp only [insertSortedBy]
    split
    · rename_i hyx
      refine List.pairwise_cons.mpr ⟨?_, ih hxys hys⟩
      intro z hz
      rcases List.mem_cons.mp ((perm_insertSortedBy ltb x ys).mem_iff.mp hz) with rfl | hz
      · exact hyx
      · exact hy z hz
    · rename_i hyx
      have hxy' : ltb x y = true := by
        rcases hconn x y hxy with h | h
        · exact h
        · exact absurd h hyx
      refine List.pairwise_cons.mpr ⟨?_, hl⟩
      intro z hz
      rcases List.mem_cons.mp hz with rfl | hz
      · exact hxy'
      · exact htrans x y z hxy' (hy z hz)

theorem perm_sortBy {α : Type} (ltb : α → α → Bool) (l : List α) :
    (sortBy ltb l).Perm l := by
  induction l with
  | nil => exact List.Perm.refl _
  | cons x xs ih =>
    exact (perm_insertSortedBy ltb x (sortBy ltb xs)).trans (ih.cons x)

theorem pairwise_sortBy {α : Type} (ltb : α → α → Bool)
    (htrans : ∀ a b c, ltb a b = true → ltb b c = true → ltb a c = true)
    (hconn : ∀ a b, a ≠ b → ltb a b = true ∨ ltb b a = true)
    (l : List α) (hl : l.Nodup) :
    (sortBy ltb l).Pairwise (fun a b => ltb a b = true) := by
  induction l with
  | nil => simp [sortBy]
  | cons x xs ih =>
    rcases List.nodup_cons.mp hl with ⟨hx, hxs⟩
    have hx' : x ∉ sortBy ltb xs := fun h => hx ((perm_sortBy ltb xs).mem_iff.mp h)
    exact pairwise_insertSortedBy ltb htrans hconn x _ hx' (ih hxs)

/-! ### Properties of the lexicographic comparison -/

theorem strLtb_trans :
    ∀ a b c : List Char, strLtb a b = true → strLtb b c = true → strLtb a c = true := by
  intro a
  induction a with
  | nil =>
    intro b c h1 h2
    cases b with
    | nil => simp [strLtb] at h1
    | cons y bs =>
      cases c with
      | nil => simp [strLtb] at h2
      | cons z cs => simp [strLtb]
  | cons x as ih =>
    intro b c h1 h2
    cases b with
    | nil => simp [strLtb] at h1
    | cons y bs =>
      cases c with
      | nil => simp [strLtb] at h2
      | cons z cs =>
        simp only [strLtb] at h1 h2 ⊢
        rcases lt_trichotomy x y with hxy | hxy | hxy
        · rcases lt_trichotomy y z with hyz | hyz | hyz
          · rw [if_pos (lt_trans hxy hyz)]
          · subst hyz; rw [if_pos hxy]
          · rw [if_neg (lt_asymm hyz), if_pos hyz] at h2; exact absurd h2 (by simp)
        · subst hxy
          rw [if_neg (lt_irrefl x), if_neg (lt_irrefl x)] at h1
          rcases lt_trichotomy x z with hxz | hxz | hxz
          · rw [if_pos hxz]
          · subst hxz
            rw [if_neg (lt_irrefl x), if_neg (lt_irrefl x)] at h2 ⊢
            exact ih bs cs h1 h2
          · rw [if_neg (lt_asymm hxz), if_pos hxz] at h2; exact absurd h2 (by simp)
        · rw [if_neg (lt_asymm hxy), if_pos hxy] at h1; exact absurd h1 (by simp)

theorem strLtb_connex :
    ∀ a b : List Char, a ≠ b → strLtb a b = true ∨ strLtb b a = true := by
  intro a
  induction a with
  | nil =>
    intro b hb
    cases b with
    | nil => exact absurd rfl hb
    | cons y bs => left; simp [strLtb]
  | cons x as ih =>
    intro b hb
    cases b with
    | nil => right; simp [strLtb]
    | cons y bs =>
      rcases lt_trichotomy x y with h | h | h
      · left; simp only [strLtb]; rw [if_pos h]
      · subst h
        have has : as ≠ bs := by
          intro h'; exact hb (by rw [h'])
        rcases ih bs has with h' | h'
        · left; simp only [strLtb]; rw [if_neg (lt_irrefl x), if_neg (lt_irrefl x)]; exact h'
        · right; simp only [strLtb]; rw [if_neg (lt_irrefl x), if_neg (lt_irrefl x)]; exact h'
      · right; simp only [strLtb]; rw [if_pos h]

theorem strCmp_trans (a b c : String) :
    strCmp a b = true → strCmp b c = true → strCmp a c = true :=
  strLtb_trans a.data b.data c.data

theorem strCmp_connex (a b : String) (h : a ≠ b) :
    strCmp a b = true ∨ strCmp b a = true := by
  refine strLtb_connex a.data b.data ?_
  intro h'
  exact h (String.ext h')

theorem intLtb_trans (a b c : Int) :
    intLtb a b = true → intLtb b c = true → intLtb a c = true := by
  simp only [intLtb, decide_eq_true_eq]
  exact lt_trans

theorem intLtb_connex (a b : Int) (h : a ≠ b) :
    intLtb a b = true ∨ intLtb b a = true := by
  simp only [intLtb, decide_eq_true_eq]
  exact lt_or_gt_of_ne h

/-! ### Lower-casing is idempotent -/

theorem toLower_toLower (c : Char) : Char.toLower (Char.toLower c) = Char.toLower c := by
  simp only [Char.toLower]
  by_cases h : c.toNat ≥ 65 ∧ c.toNat ≤ 90
  · rw [if_pos h]
    obtain ⟨h1, h2⟩ := h
    have h32 : (Char.ofNat (c.toNat + 32)).toNat = c.toNat + 32 := by
      generalize c.toNat = k at h1 h2 ⊢
      interval_cases k <;> decide
    rw [h32, if_neg (by omega)]
  · rw [if_neg h, if_neg h]

theorem pyLower_pyLower (s : String) : pyLower (pyLower s) = pyLower s := by
  have hdata : (pyLower s).data = s.data.map Char.toLower := rfl
  apply String.ext
  rw [show (pyLower (pyLower s)).data = (pyLower s).data.map Char.toLower from rfl, hdata,
    List.map_map]
  have hfun : Char.toLower ∘ Char.toLower = Char.toLower := funext toLower_toLower
  rw [hfun]

/-! ### The scanner specification `leastHit` -/

theorem leastHit_isLeast (check : String → Bool) :
    ∀ (wl : List String) (w : String) (i : Nat),
      leastHit check wl = some (w, i) →
      i < wl.length ∧ wl.getD i "" = w ∧ check w = true ∧
        ∀ j, j < i → check (wl.getD j "") = false := by
  intro wl
  induction wl with
  | nil => intro w i h; simp [leastHit] at h
  | cons x ws ih =>
    intro w i h
    simp only [leastHit] at h
    by_cases hx : check x = true
    · rw [if_pos hx] at h
      obtain ⟨rfl, rfl⟩ : x = w ∧ 0 = i := by
        have := Option.some.inj h
        exact ⟨congrArg Prod.fst this, congrArg Prod.snd this⟩
      refine ⟨by simp, by simp, hx, ?_⟩
      intro j hj; omega
    · rw [if_neg hx] at h
      rcases Option.map_eq_some'.mp h with ⟨p, hp, hpe⟩
      obtain ⟨rfl, rfl⟩ : p.1 = w ∧ p.2 + 1 = i := by
        exact ⟨congrArg Prod.fst hpe, congrArg Prod.snd hpe⟩
      obtain ⟨h1, h2, h3, h4⟩ := ih p.1 p.2 (by rw [hp])
      refine ⟨by simpa using h1, by simpa using h2, h3, ?_⟩
      intro j hj
      cases j with
      | zero => simpa using eq_false_of_ne_true hx
      | succ j' =>
        have := h4 j' (by omega)
        simpa using this

theorem leastHit_append (check : String → Bool) (a b : List String) :
    leastHit check (a ++ b) =
      match leastHit check a with
      | some r => some r
      | none => (leastHit check b).map (fun p => (p.1, a.length + p.2)) := by
  induction a with
  | nil =>
    simp only [List.nil_append, leastHit, List.length_nil]
    cases h : leastHit check b with
    | none => simp
    | some p => simp
  | cons x xs ih =>
    simp only [List.cons_append, leastHit]
    by_cases hx : check x = true
    · rw [if_pos hx, if_pos hx]
    · rw [if_neg hx, if_neg hx]
      simp only [List.append_eq]
      rw [ih]
      cases h : leastHit check xs with
      | some r => simp
      | none =>
        simp only [List.length_cons]
        cases hb : leastHit check b with
        | none => simp
        | some q =>
          simp only [Option.map_some']
          congr 1
          simp only [Prod.mk.injEq, true_and]
          omega

theorem crack_worker_chunk_eq (check : String → Bool) :
    ∀ (chunk : List String) (s : Nat),
      crack_worker_chunk check chunk s =
        (leastHit check chunk).map (fun p => (p.1, s + p.2)) := by
  intro chunk
  induction chunk with
  | nil => intro s; rfl
  | cons w ws ih =>
    intro s
    simp only [crack_worker_chunk, leastHit]
    by_cases hw : check w = true
    · rw [if_pos hw, if_pos hw]; simp
    · rw [if_neg hw, if_neg hw, ih (s + 1)]
      cases h : leastHit check ws with
      | none => rfl
      | some p =>
        simp only [Option.map_some']
        congr 1
        simp only [Prod.mk.injEq, true_and]
        omega

theorem crack_single_loop_eq (check : String → Bool) :
    ∀ (wl : List String) (s : Nat),
      crack_single_loop check wl s =
        (leastHit check wl).map (fun p => (p.1, s + p.2 + 1)) := by
  intro wl
  induction wl with
  | nil => intro s; rfl
  | cons w ws ih =>
    intro s
    simp only [crack_single_loop, leastHit]
    by_cases hw : check w = true
    · rw [if_pos hw, if_pos hw]; simp
    · rw [if_neg hw, if_neg hw, ih (s + 1)]
      cases h : leastHit check ws with
      | none => rfl
      | some p =>
        simp only [Option.map_some']
        congr 1
        simp only [Prod.mk.injEq, true_and]
        omega

/-! ### Chunk ranges: closed forms and coverage -/

theorem filterMap_eq_map_of_forall {α β : Type} (f : α → Option β) (g : α → β) :
    ∀ (l : List α), (∀ a ∈ l, f a = some (g a)) → l.filterMap f = l.map g := by
  intro l
  induction l with
  | nil => intro _; rfl
  | cons x xs ih =>
    intro h
    rw [List.filterMap_cons, h x (List.mem_cons_self x xs), List.map_cons,
      ih (fun a ha => h a (List.mem_cons_of_mem x ha))]

theorem chainCover_le : ∀ (rs : List (Nat × Nat)) (s e : Nat), ChainCover s rs e → s ≤ e := by
  intro rs
  induction rs with
  | nil => intro s e h; exact le_of_eq h
  | cons r rest ih =>
    intro s e h
    obtain ⟨h1, h2, h3⟩ := h
    exact le_trans h2 (ih r.2 e h3)

theorem chainCover_append :
    ∀ (l₁ l₂ : List (Nat × Nat)) (s m e : Nat),
      ChainCover s l₁ m → ChainCover m l₂ e → ChainCover s (l₁ ++ l₂) e := by
  intro l₁
  induction l₁ with
  | nil =>
    intro l₂ s m e h1 h2
    have : s = m := h1
    rw [List.nil_append, this]
    exact h2
  | cons r rest ih =>
    intro l₂ s m e h1 h2
    obtain ⟨ha, hb, hc⟩ := h1
    exact ⟨ha, hb, ih l₂ r.2 m e hc h2⟩

theorem chainCover_units :
    ∀ (k s : Nat), ChainCover s ((List.range' s k).map (fun i => (i, i + 1))) (s + k) := by
  intro k
  induction k with
  | zero => intro s; simp [List.range', ChainCover]
  | succ n ih =>
    intro s
    have hr : List.range' s (n + 1) = s :: List.range' (s + 1) n := rfl
    rw [hr, List.map_cons]
    refine ⟨rfl, by omega, ?_⟩
    have := ih (s + 1)
    have harith : s + 1 + n = s + (n + 1) := by omega
    rwa [harith] at this

theorem chainCover_blocks :
    ∀ (k j cs : Nat),
      ChainCover (j * cs) ((List.range' j k).map (fun i => (i * cs, i * cs + cs)))
        ((j + k) * cs) := by
  intro k
  induction k with
  | zero => intro j cs; simp [List.range', ChainCover]
  | succ n ih =>
    intro j cs
    have hr : List.range' j (n + 1) = j :: List.range' (j + 1) n := rfl
    rw [hr, List.map_cons]
    refine ⟨rfl, by omega, ?_⟩
    have := ih (j + 1) cs
    have h1 : (j + 1) * cs = j * cs + cs := by ring
    have h2 : (j + 1 + n) * cs = (j + (n + 1)) * cs := by ring_nf
    rw [h1, h2] at this
    exact this

theorem chunkRanges_zero (N : Nat) : chunkRanges 0 N = [] := by
  simp only [chunkRanges]
  rw [List.filterMap_eq_nil_iff.mpr]
  intro a _
  simp

theorem chunkRanges_small (L N : Nat) (h1 : 1 ≤ L) (h2 : L < N) :
    chunkRanges L N = (List.range L).map (fun i => (i, i + 1)) := by
  have hdiv : L / N = 0 := Nat.div_eq_of_lt h2
  have hNs : N = L + (N - L) := by omega
  have hcs1 : (if L / N = 0 then 1 else L / N) = 1 := by rw [hdiv]; rfl
  simp only [chunkRanges]
  rw [hcs1, hNs, List.range_add, List.filterMap_append]
  have hfst :
      (List.range L).filterMap (fun i =>
        if i * 1 < L then
          some (i * 1, if i < L + (N - L) - 1 then i * 1 + 1 else L)
        else none) = (List.range L).map (fun i => (i, i + 1)) := by
    apply filterMap_eq_map_of_forall
    intro i hi
    have hiL : i < L := List.mem_range.mp hi
    rw [if_pos (by omega : i * 1 < L)]
    rw [if_pos (by omega : i < L + (N - L) - 1)]
    simp
  have hsnd :
      ((List.range (N - L)).map (fun x => L + x)).filterMap (fun i =>
        if i * 1 < L then
          some (i * 1, if i < L + (N - L) - 1 then i * 1 + 1 else L)
        else none) = [] := by
    rw [List.filterMap_eq_nil_iff]
    intro a ha
    rcases List.mem_map.mp ha with ⟨j, _, rfl⟩
    rw [if_neg (by omega : ¬ (L + j) * 1 < L)]
  rw [hfst, hsnd, List.append_nil]

theorem chunkRanges_big (L N : Nat) (hN : 1 ≤ N) (hNL : N ≤ L) :
    chunkRanges L N =
      (List.range (N - 1)).map (fun i => (i * (L / N), i * (L / N) + L / N)) ++
        [((N - 1) * (L / N), L)] := by
  have hcs0 : 1 ≤ L / N := (Nat.one_le_div_iff (by omega)).mpr hNL
  have hNcs0 : N * (L / N) ≤ L := by
    rw [Nat.mul_comm]
    exact Nat.div_mul_le_self L N
  obtain ⟨cs, hcsdef⟩ : ∃ cs, L / N = cs := ⟨L / N, rfl⟩
  rw [hcsdef] at hcs0 hNcs0
  have hsplit : (N - 1) * cs + cs = N * cs := by
    have hn : N - 1 + 1 = N := by omega
    calc (N - 1) * cs + cs = (N - 1 + 1) * cs := by ring
    _ = N * cs := by rw [hn]
  have hlast : (N - 1) * cs < L := by omega
  have hNs : N = (N - 1) + 1 := by omega
  simp only [chunkRanges]
  rw [hcsdef, if_neg (by omega : ¬ cs = 0)]
  conv_lhs => rw [hNs]
  rw [List.range_succ, List.filterMap_append]
  have hfst :
      (List.range (N - 1)).filterMap (fun i =>
        if i * cs < L then
          some (i * cs, if i < N - 1 + 1 - 1 then i * cs + cs else L)
        else none) =
      (List.range (N - 1)).map (fun i => (i * cs, i * cs + cs)) := by
    apply filterMap_eq_map_of_forall
    intro i hi
    have hiN : i < N - 1 := List.mem_range.mp hi
    have histart : i * cs < L := by
      have : i * cs ≤ (N - 1) * cs := Nat.mul_le_mul_right _ (le_of_lt hiN)
      omega
    rw [if_pos histart, if_pos (by omega : i < N - 1 + 1 - 1)]
  have hsnd :
      [N - 1].filterMap (fun i =>
        if i * cs < L then
          some (i * cs, if i < N - 1 + 1 - 1 then i * cs + cs else L)
        else none) = [((N - 1) * cs, L)] := by
    simp only [List.filterMap_cons, List.filterMap_nil]
    rw [if_pos hlast, if_neg (by omega : ¬ N - 1 < N - 1 + 1 - 1)]
  rw [hfst, hsnd]

theorem chainCover_chunkRanges (L N : Nat) (hN : 1 ≤ N) :
    ChainCover 0 (chunkRanges L N) L := by
  rcases Nat.eq_zero_or_pos L with rfl | hL
  · rw [chunkRanges_zero]
    exact rfl
  rcases lt_or_le L N with hLN | hNL
  · rw [chunkRanges_small L N hL hLN]
    have := chainCover_units L 0
    rw [List.range_eq_range']
    simpa using this
  · rw [chunkRanges_big L N hN hNL]
    apply chainCover_append _ _ 0 ((N - 1) * (L / N)) L
    · have := chainCover_blocks (N - 1) 0 (L / N)
      rw [List.range_eq_range']
      simpa using this
    · have hcs : 1 ≤ L / N := (Nat.one_le_div_iff (by omega)).mpr hNL
      have hNcs : N * (L / N) ≤ L := by
        rw [Nat.mul_comm]
        exact Nat.div_mul_le_self L N
      have hsplit : (N - 1) * (L / N) + L / N = N * (L / N) := by
        have hn : N - 1 + 1 = N := by omega
        calc (N - 1) * (L / N) + L / N = (N - 1 + 1) * (L / N) := by ring
        _ = N * (L / N) := by rw [hn]
      exact ⟨rfl, by omega, rfl⟩

theorem chainCover_flatten :
    ∀ (rs : List (Nat × Nat)) (s e : Nat), ChainCover s rs e →
      rs.flatMap (fun r => List.range' r.1 (r.2 - r.1)) = List.range' s (e - s) := by
  intro rs
  induction rs with
  | nil =>
    intro s e h
    have : s = e := h
    subst this
    simp
  | cons r rest ih =>
    intro s e h
    obtain ⟨h1, h2, h3⟩ := h
    have hbe : r.2 ≤ e := chainCover_le rest r.2 e h3
    rw [List.flatMap_cons, ih r.2 e h3, h1]
    have happ := List.range'_append s (r.2 - s) (e - r.2) 1
    have harith1 : s + 1 * (r.2 - s) = r.2 := by omega
    have harith2 : e - r.2 + (r.2 - s) = e - s := by omega
    rw [harith1, harith2] at happ
    exact happ

/-! ### Scanning the chunks in dispatch order equals scanning the corpus -/

theorem firstHit_scan (check : String → Bool) (wl : List String) :
    ∀ (rs : List (Nat × Nat)) (s : Nat), ChainCover s rs wl.length →
      firstHit (rs.map (fun r =>
          crack_worker_chunk check ((wl.drop r.1).take (r.2 - r.1)) r.1)) =
        (leastHit check (wl.drop s)).map (fun p => (p.1, s + p.2)) := by
  intro rs
  induction rs with
  | nil =>
    intro s h
    have hs : s = wl.length := h
    have hnil : wl.drop s = [] := by
      rw [hs, List.drop_length]
    rw [hnil]
    rfl
  | cons r rest ih =>
    intro s h
    obtain ⟨h1, h2, h3⟩ := h
    have hbLen : r.2 ≤ wl.length := chainCover_le rest r.2 wl.length h3
    have hdd : (wl.drop s).drop (r.2 - s) = wl.drop r.2 := by
      rw [List.drop_drop]
      congr 1
      omega
    have hdecomp : wl.drop s = (wl.drop s).take (r.2 - s) ++ wl.drop r.2 := by
      conv_lhs => rw [← List.take_append_drop (r.2 - s) (wl.drop s)]
      rw [hdd]
    have hTlen : ((wl.drop s).take (r.2 - s)).length = r.2 - s := by
      rw [List.length_take, List.length_drop]
      omega
    rw [List.map_cons, h1, crack_worker_chunk_eq]
    cases hT : leastHit check ((wl.drop s).take (r.2 - s)) with
    | some p =>
      simp only [Option.map_some']
      have hfh : firstHit (some (p.1, s + p.2) ::
          rest.map (fun r =>
            crack_worker_chunk check ((wl.drop r.1).take (r.2 - r.1)) r.1)) =
          some (p.1, s + p.2) := rfl
      rw [hfh, hdecomp, leastHit_append, hT]
      simp
    | none =>
      simp only [Option.map_none']
      have hfh : firstHit (none ::
          rest.map (fun r =>
            crack_worker_chunk check ((wl.drop r.1).take (r.2 - r.1)) r.1)) =
          firstHit (rest.map (fun r =>
            crack_worker_chunk check ((wl.drop r.1).take (r.2 - r.1)) r.1)) := rfl
      rw [hfh, ih r.2 h3, hdecomp, leastHit_append, hT, hTlen]
      cases hb : leastHit check (wl.drop r.2) with
      | none => simp
      | some q =>
        simp only [Option.map_some']
        congr 1
        simp only [Prod.mk.injEq, true_and]
        omega

theorem crack_user_parallel_eq (check : String → Bool) (word_list : List String)
    (N : Nat) (hN : 1 ≤ N) :
    crack_user_parallel check word_list N =
      (leastHit check word_list).map (fun p => (p.1, p.2 + 1)) := by
  have hscan := firstHit_scan check word_list (chunkRanges word_list.length N) 0
    (chainCover_chunkRanges word_list.length N hN)
  simp only [List.drop_zero] at hscan
  simp only [crack_user_parallel, chunkArgs, List.map_map]
  have hcomp :
      ((fun a => crack_worker_chunk check a.1 a.2) ∘
        (fun r : Nat × Nat => ((word_list.drop r.1).take (r.2 - r.1), r.1))) =
      (fun r : Nat × Nat =>
        crack_worker_chunk check ((word_list.drop r.1).take (r.2 - r.1)) r.1) := rfl
  rw [hcomp, hscan]
  cases h : leastHit check word_list with
  | none => rfl
  | some p => simp

theorem crack_single_user_eq (check : String → Bool) (word_list : List String) :
    crack_single_user check word_list =
      (leastHit check word_list).map (fun p => (p.1, p.2 + 1)) := by
  rw [crack_single_user, crack_single_loop_eq]
  cases h : leastHit check word_list with
  | none => rfl
  | some p => simp

/-! ### Workfactor grouping invariants -/

theorem bucketsWF_addEntry (gs : List (Int × List ShadowEntry)) (e : ShadowEntry)
    (h : ∀ g ∈ gs, ∀ x ∈ g.2, x.workfactor = g.1) :
    ∀ g ∈ addEntry gs e, ∀ x ∈ g.2, x.workfactor = g.1 := by
  intro g hg x hx
  simp only [addEntry] at hg
  split at hg
  · rcases List.mem_map.mp hg with ⟨g₀, hg₀, rfl⟩
    by_cases hk : (g₀.1 == e.workfactor) = true
    · rw [if_pos hk] at hx ⊢
      rcases List.mem_append.mp hx with hx | hx
      · exact h g₀ hg₀ x hx
      · have hxe : x = e := by simpa using hx
        subst hxe
        exact (beq_iff_eq.mp hk).symm
    · rw [if_neg hk] at hx ⊢
      exact h g₀ hg₀ x hx
  · rcases List.mem_append.mp hg with hg | hg
    · exact h g hg x hx
    · have hge : g = (e.workfactor, [e]) := by simpa using hg
      subst hge
      have hxe : x = e := by simpa using hx
      subst hxe
      rfl

theorem bucketsWF_foldl :
    ∀ (es : List ShadowEntry) (gs : List (Int × List ShadowEntry)),
      (∀ g ∈ gs, ∀ x ∈ g.2, x.workfactor = g.1) →
      ∀ g ∈ es.foldl addEntry gs, ∀ x ∈ g.2, x.workfactor = g.1 := by
  intro es
  induction es with
  | nil => intro gs h; exact h
  | cons e es' ih =>
    intro gs h
    exact ih (addEntry gs e) (bucketsWF_addEntry gs e h)

theorem bucketsWF_groupBy (entries : List ShadowEntry) :
    ∀ g ∈ groupByWorkfactor entries, ∀ x ∈ g.2, x.workfactor = g.1 :=
  bucketsWF_foldl entries [] (by intro g hg; simp at hg)

theorem mem_flat_addEntry (gs : List (Int × List ShadowEntry)) (e : ShadowEntry)
    (x : ShadowEntry) (g : Int × List ShadowEntry)
    (hg : g ∈ addEntry gs e) (hx : x ∈ g.2) :
    (∃ g₀ ∈ gs, x ∈ g₀.2) ∨ x = e := by
  simp only [addEntry] at hg
  split at hg
  · rcases List.mem_map.mp hg with ⟨g₀, hg₀, rfl⟩
    by_cases hk : (g₀.1 == e.workfactor) = true
    · rw [if_pos hk] at hx
      rcases List.mem_append.mp hx with hx | hx
      · exact Or.inl ⟨g₀, hg₀, hx⟩
      · exact Or.inr (by simpa using hx)
    · rw [if_neg hk] at hx
      exact Or.inl ⟨g₀, hg₀, hx⟩
  · rcases List.mem_append.mp hg with hg | hg
    · exact Or.inl ⟨g, hg, hx⟩
    · have hge : g = (e.workfactor, [e]) := by simpa using hg
      subst hge
      exact Or.inr (by simpa using hx)

theorem mem_flat_foldl :
    ∀ (es : List ShadowEntry) (gs : List (Int × List ShadowEntry))
      (x : ShadowEntry) (g : Int × List ShadowEntry),
      g ∈ es.foldl addEntry gs → x ∈ g.2 →
      (∃ g₀ ∈ gs, x ∈ g₀.2) ∨ x ∈ es := by
  intro es
  induction es with
  | nil =>
    intro gs x g hg hx
    exact Or.inl ⟨g, hg, hx⟩
  | cons e es' ih =>
    intro gs x g hg hx
    rcases ih (addEntry gs e) x g hg hx with ⟨g₀, hg₀, hx₀⟩ | h
    · rcases mem_flat_addEntry gs e x g₀ hg₀ hx₀ with h' | rfl
      · exact Or.inl h'
      · exact Or.inr (List.mem_cons_self x es')
    · exact Or.inr (List.mem_cons_of_mem e h)

theorem mem_groupBy_sub (entries : List ShadowEntry) (x : ShadowEntry)
    (g : Int × List ShadowEntry) (hg : g ∈ groupByWorkfactor entries) (hx : x ∈ g.2) :
    x ∈ entries := by
  rcases mem_flat_foldl entries [] x g hg hx with ⟨g₀, hg₀, _⟩ | h
  · simp at hg₀
  · exact h

theorem lookupGroup_sub (gs : List (Int × List ShadowEntry)) (k : Int) (x : ShadowEntry)
    (hx : x ∈ lookupGroup gs k) : ∃ g ∈ gs, x ∈ g.2 := by
  unfold lookupGroup at hx
  cases hfind : gs.find? (fun g => g.1 == k) with
  | none => rw [hfind] at hx; simp at hx
  | some g =>
    rw [hfind] at hx
    exact ⟨g, List.mem_of_find?_eq_some hfind, hx⟩

theorem lookupGroup_wf (gs : List (Int × List ShadowEntry)) (k : Int) (x : ShadowEntry)
    (hwf : ∀ g ∈ gs, ∀ y ∈ g.2, y.workfactor = g.1)
    (hx : x ∈ lookupGroup gs k) : x.workfactor = k := by
  unfold lookupGroup at hx
  cases hfind : gs.find? (fun g => g.1 == k) with
  | none => rw [hfind] at hx; simp at hx
  | some g =>
    rw [hfind] at hx
    have hkey : g.1 = k := by
      have := List.find?_some hfind
      simpa using this
    rw [← hkey]
    exact hwf g (List.mem_of_find?_eq_some hfind) x hx

theorem mem_sortedGroups (entries : List ShadowEntry) (g : Int × List ShadowEntry)
    (hg : g ∈ sortedGroups entries) :
    ∀ e ∈ g.2, e ∈ entries ∧ e.workfactor = g.1 := by
  rcases List.mem_map.mp hg with ⟨k, _, rfl⟩
  intro e he
  constructor
  · rcases lookupGroup_sub _ k e he with ⟨g₀, hg₀, hx⟩
    exact mem_groupBy_sub entries e g₀ hg₀ hx
  · exact lookupGroup_wf _ k e (bucketsWF_groupBy entries) he

theorem keys_addEntry (gs : List (Int × List ShadowEntry)) (e : ShadowEntry) :
    (addEntry gs e).map Prod.fst =
      if gs.any (fun g => g.1 == e.workfactor) then gs.map Prod.fst
      else gs.map Prod.fst ++ [e.workfactor] := by
  simp only [addEntry]
  split
  · rw [List.map_map]
    apply List.map_congr_left
    intro g _
    simp only [Function.comp_apply]
    split <;> rfl
  · simp

theorem keys_nodup_foldl :
    ∀ (es : List ShadowEntry) (gs : List (Int × List ShadowEntry)),
      ((gs.map Prod.fst).Nodup) → ((es.foldl addEntry gs).map Prod.fst).Nodup := by
  intro es
  induction es with
  | nil => intro gs h; exact h
  | cons e es' ih =>
    intro gs h
    apply ih
    rw [keys_addEntry]
    split
    · exact h
    · rename_i hany
      rw [List.nodup_append]
      refine ⟨h, List.nodup_singleton _, ?_⟩
      intro a ha hb
      have hae : a = e.workfactor := by simpa using hb
      subst hae
      rcases List.mem_map.mp ha with ⟨g, hg, hfst⟩
      apply hany
      rw [List.any_eq_true]
      exact ⟨g, hg, by simp [hfst]⟩

theorem keys_nodup (entries : List ShadowEntry) :
    ((groupByWorkfactor entries).map Prod.fst).Nodup :=
  keys_nodup_foldl entries [] (by simp)

theorem sortedWfKeys_sorted (entries : List ShadowEntry) :
    (sortedWfKeys entries).Pairwise (fun a b => a < b) := by
  have h := pairwise_sortBy intLtb intLtb_trans intLtb_connex _ (keys_nodup entries)
  exact h.imp (fun hab => by simpa [intLtb] using hab)

theorem pairwise_le_of_all_eq (l : List Int) (c : Int) (h : ∀ x ∈ l, x = c) :
    l.Pairwise (fun a b => a ≤ b) := by
  induction l with
  | nil => exact List.Pairwise.nil
  | cons x xs ih =>
    refine List.pairwise_cons.mpr ⟨?_, ih (fun y hy => h y (List.mem_cons_of_mem x hy))⟩
    intro y hy
    rw [h x (List.mem_cons_self x xs), h y (List.mem_cons_of_mem x hy)]

theorem sorted_flatMap_wf (gs : List (Int × List ShadowEntry))
    (f : Int × List ShadowEntry → List CrackResult)
    (hk : (gs.map Prod.fst).Pairwise (fun a b => a < b))
    (hf : ∀ g ∈ gs, ∀ r ∈ f g, r.workfactor = g.1) :
    ((gs.flatMap f).map (fun r => r.workfactor)).Pairwise (fun a b => a ≤ b) := by
  induction gs with
  | nil => simp
  | cons g rest ih =>
    rw [List.flatMap_cons, List.map_append]
    rcases List.pairwise_cons.mp hk with ⟨hg, hrest⟩
    rw [List.pairwise_append]
    refine ⟨?_, ih hrest (fun g' hg' => hf g' (List.mem_cons_of_mem g hg')), ?_⟩
    · apply pairwise_le_of_all_eq _ g.1
      intro x hx
      rcases List.mem_map.mp hx with ⟨r, hr, rfl⟩
      exact hf g (List.mem_cons_self g rest) r hr
    · intro x hx y hy
      rcases List.mem_map.mp hx with ⟨r, hr, rfl⟩
      have hx' : r.workfactor = g.1 := hf g (List.mem_cons_self g rest) r hr
      rcases List.mem_map.mp hy with ⟨r', hr', rfl⟩
      rcases List.mem_flatMap.mp hr' with ⟨g', hg', hrg'⟩
      have hy' : r'.workfactor = g'.1 := hf g' (List.mem_cons_of_mem g hg') r' hrg'
      have hlt : g.1 < g'.1 := hg g'.1 (List.mem_map.mpr ⟨g', hg', rfl⟩)
      rw [hx', hy']
      exact le_of_lt hlt

/-! ### The user dict and the sequential word loop -/

theorem dict_fold_inv (P : ShadowEntry → Prop) :
    ∀ (es : List ShadowEntry) (acc : List (String × ShadowEntry)),
      (∀ e ∈ es, P e) → (∀ p ∈ acc, p.1 = p.2.user ∧ P p.2) →
      ∀ p ∈ es.foldl (fun acc e =>
          if acc.any (fun p => p.1 == e.user) then
            acc.map (fun p => if p.1 == e.user then (p.1, e) else p)
          else acc ++ [(e.user, e)]) acc,
        p.1 = p.2.user ∧ P p.2 := by
  intro es
  induction es with
  | nil => intro acc _ hacc; exact hacc
  | cons e es' ih =>
    intro acc hes hacc
    apply ih
    · intro x hx
      exact hes x (List.mem_cons_of_mem e hx)
    · intro p hp
      simp only [] at hp
      split at hp
      · rcases List.mem_map.mp hp with ⟨p₀, hp₀, rfl⟩
        by_cases hk : (p₀.1 == e.user) = true
        · rw [if_pos hk]
          exact ⟨beq_iff_eq.mp hk, hes e (List.mem_cons_self e es')⟩
        · rw [if_neg hk]
          exact hacc p₀ hp₀
      · rcases List.mem_append.mp hp with hp | hp
        · exact hacc p hp
        · have hpe : p = (e.user, e) := by simpa using hp
          subst hpe
          exact ⟨rfl, hes e (List.mem_cons_self e es')⟩

theorem dictByUser_entries (group : List ShadowEntry) (p : String × ShadowEntry)
    (hp : p ∈ dictByUser group) : p.1 = p.2.user ∧ p.2 ∈ group := by
  exact dict_fold_inv (· ∈ group) group [] (fun e he => he) (by simp) p hp

theorem groupLoop_mem_spec (check : String → String → Bool) (wf : Int) (total : Nat) :
    ∀ (ws : List String) (i : Nat) (remaining : List (String × ShadowEntry))
      (r : CrackResult),
      r ∈ groupLoop check wf total ws i remaining →
      ∃ p ∈ remaining, r.user = p.1 ∧ r.workfactor = wf ∧
        (match leastHit (check p.2.full_hash) ws with
         | some q => r.password = some q.1 ∧ r.attempts = i + q.2 + 1
         | none => r.password = none ∧ r.attempts = total) := by
  intro ws
  induction ws with
  | nil =>
    intro i remaining r hr
    simp only [groupLoop] at hr
    rcases List.mem_map.mp hr with ⟨p, hp, rfl⟩
    exact ⟨p, hp, rfl, rfl, ⟨rfl, rfl⟩⟩
  | cons w ws' ih =>
    intro i remaining r hr
    simp only [groupLoop] at hr
    rcases List.mem_append.mp hr with hr | hr
    · rcases List.mem_map.mp hr with ⟨p, hp, rfl⟩
      obtain ⟨hpmem, hc⟩ := List.mem_filter.mp hp
      refine ⟨p, hpmem, rfl, rfl, ?_⟩
      simp [leastHit, if_pos hc]
    · rcases ih (i + 1) _ r hr with ⟨p, hp, h1, h2, h3⟩
      obtain ⟨hpmem, hcb⟩ := List.mem_filter.mp hp
      have hc : check p.2.full_hash w = false := by simpa using hcb
      refine ⟨p, hpmem, h1, h2, ?_⟩
      simp only [leastHit, hc, Bool.false_eq_true, if_false]
      cases hq : leastHit (check p.2.full_hash) ws' with
      | none =>
        rw [hq] at h3
        simpa using h3
      | some q =>
        rw [hq] at h3
        simp only [Option.map_some']
        obtain ⟨ha, hb⟩ := h3
        exact ⟨ha, by omega⟩

/-! ### Claim theorems -/

/-- Claim C1: for every corpus, verification oracle (fixing the target
reference) and worker count `N ≥ 1`, when more than one corpus word
verifies, `crack_user_parallel` returns the match with the lowest global
corpus index `i` — the corpus word at `i` verifies and every smaller index
fails — together with that index reported as the 1-based attempt position
`i + 1` (the spec's attempt index).  The embedded `Pool.map` result
collection is deterministic and order-preserving, so this is independent
of which worker finishes first. -/
theorem crack_user_parallel_returns_lowest_index (check : String → Bool)
    (word_list : List String) (N : Nat) (w : String) (i : Nat)
    (hN : 1 ≤ N) (hmulti : 1 < word_list.countP check)
    (hleast : leastHit check word_list = some (w, i)) :
    crack_user_parallel check word_list N = some (w, i + 1) ∧
      i < word_list.length ∧ word_list.getD i "" = w ∧ check w = true ∧
      ∀ j, j < i → check (word_list.getD j "") = false := by
  obtain ⟨h1, h2, h3, h4⟩ := leastHit_isLeast check word_list w i hleast
  refine ⟨?_, h1, h2, h3, h4⟩
  rw [crack_user_parallel_eq check word_list N hN, hleast]
  rfl

theorem crack_user_parallel_returns_lowest_index_witness :
    ((1 : Nat) ≤ 2 ∧ 1 < demoCorpus.countP demoCheck ∧
        leastHit demoCheck demoCorpus = some ("bbbb", 1)) ∧
      crack_user_parallel demoCheck demoCorpus 2 = some ("bbbb", 2) :=
  ⟨⟨by decide, by decide, by decide⟩,
    (crack_user_parallel_returns_lowest_index demoCheck demoCorpus 2 "bbbb" 1
      (by decide) (by decide) (by decide)).1⟩

/-- Claim C2: for every corpus length `L` and worker count `N ≥ 1`, the
chunk ranges built by `crack_user_parallel` are contiguous half-open
ranges tiling `[0, L)` exactly — flattening them in order yields the index
sequence `0, 1, …, L - 1`, so every index is covered exactly once with no
gap and no overlap — and there are at most `N` chunks. -/
theorem chunk_partition_covers_corpus (L N : Nat) (hN : 1 ≤ N) :
    (chunkRanges L N).flatMap (fun r => List.range' r.1 (r.2 - r.1)) = List.range L ∧
      (chunkRanges L N).length ≤ N := by
  constructor
  · have h := chainCover_flatten (chunkRanges L N) 0 L (chainCover_chunkRanges L N hN)
    rwa [Nat.sub_zero, ← List.range_eq_range'] at h
  · rcases Nat.eq_zero_or_pos L with rfl | hL
    · rw [chunkRanges_zero]; simp
    rcases lt_or_le L N with hLN | hNL
    · rw [chunkRanges_small L N hL hLN]
      simp only [List.length_map, List.length_range]
      omega
    · rw [chunkRanges_big L N hN hNL]
      simp only [List.length_append, List.length_map, List.length_range,
        List.length_singleton]
      omega

theorem chunk_partition_covers_corpus_witness :
    (1 : Nat) ≤ 2 ∧
      ((chunkRanges 5 2).flatMap (fun r => List.range' r.1 (r.2 - r.1)) = List.range 5 ∧
        (chunkRanges 5 2).length ≤ 2) :=
  ⟨by decide, chunk_partition_covers_corpus 5 2 (by decide)⟩

/-- Claim C3 counterexample: with corpus length 5 and 2 workers the claim
demands two chunks whose non-last sizes are `⌈5/2⌉ = 3`, but the code uses
floor division: the first chunk has size `⌊5/2⌋ = 2` and the last absorbs
the remainder, giving sizes `[2, 3]`. -/
theorem chunk_ceiling_size_counterexample :
    (chunkRanges 5 2).map (fun r => r.2 - r.1) = [2, 3] ∧ (5 + 2 - 1) / 2 = 3 := by
  decide

/-- Claim C3 (amended): for `N ≥ 1`, when `N ≤ len` the distributor makes
exactly `N` contiguous chunks, the first `N - 1` of size `⌊len/N⌋` (floor,
not ceiling) with the last chunk absorbing the remainder; when `len < N`
it makes `len` chunks of size 1. -/
theorem chunk_sizes_floor_with_last_remainder (L N : Nat) (hN : 1 ≤ N) :
    ((chunkRanges L N).map (fun r => r.2 - r.1) =
        if N ≤ L then List.replicate (N - 1) (L / N) ++ [L - (N - 1) * (L / N)]
        else List.replicate L 1) ∧
      (chunkRanges L N).length = if N ≤ L then N else L := by
  rcases Nat.eq_zero_or_pos L with rfl | hL
  · rw [chunkRanges_zero]
    have hnot : ¬ N ≤ 0 := by omega
    simp [hnot]
  rcases lt_or_le L N with hLN | hNL
  · rw [chunkRanges_small L N hL hLN]
    have hnot : ¬ N ≤ L := by omega
    constructor
    · rw [if_neg hnot, List.map_map]
      have hfun : ((fun r : Nat × Nat => r.2 - r.1) ∘ (fun i : Nat => (i, i + 1))) =
          fun _ => 1 := by
        funext i; simp
      rw [hfun, List.map_const', List.length_range]
    · rw [if_neg hnot, List.length_map, List.length_range]
  · rw [chunkRanges_big L N hN hNL]
    constructor
    · rw [if_pos hNL, List.map_append, List.map_map]
      have hfun : ((fun r : Nat × Nat => r.2 - r.1) ∘
          (fun i : Nat => (i * (L / N), i * (L / N) + L / N))) = fun _ => L / N := by
        funext i; simp
      rw [hfun, List.map_const', List.length_range]
      rfl
    · rw [if_pos hNL]
      simp only [List.length_append, List.length_map, List.length_range,
        List.length_singleton]
      omega

theorem chunk_sizes_floor_with_last_remainder_witness :
    (1 : Nat) ≤ 2 ∧
      (((chunkRanges 5 2).map (fun r => r.2 - r.1) =
          if 2 ≤ 5 then List.replicate (2 - 1) (5 / 2) ++ [5 - (2 - 1) * (5 / 2)]
          else List.replicate 5 1) ∧
        (chunkRanges 5 2).length = if 2 ≤ 5 then 2 else 5) :=
  ⟨by decide, chunk_sizes_floor_with_last_remainder 5 2 (by decide)⟩

/-- Claim C5: every CrackResult appended by either orchestrator belongs to
some input credential record and satisfies the per-record specification:
user and workfactor copied from the record and, if some corpus word
verifies against the record's reference, the password is the first such
word with attempts its 1-based corpus position, while if none verifies the
password is absent and attempts equal the corpus length. -/
theorem crack_results_follow_record_spec (check : String → String → Bool)
    (entries : List ShadowEntry) (word_list : List String) (N : Nat) (hN : 1 ≤ N) :
    (∀ r ∈ crack_by_workfactor_group_parallel check entries word_list N,
        ∃ e ∈ entries, resultMatchesSpec check word_list e r) ∧
      (∀ r ∈ crack_by_workfactor_group check entries word_list,
        ∃ e ∈ entries, resultMatchesSpec check word_list e r) := by
  constructor
  · intro r hr
    rcases List.mem_flatMap.mp hr with ⟨g, hg, hrg⟩
    rcases List.mem_map.mp hrg with ⟨e, he, rfl⟩
    obtain ⟨heent, hewf⟩ := mem_sortedGroups entries g hg e he
    refine ⟨e, heent, ?_⟩
    have hcup := crack_user_parallel_eq (check e.full_hash) word_list N hN
    unfold resultMatchesSpec
    cases h : leastHit (check e.full_hash) word_list with
    | some p =>
      rcases p with ⟨pw, idx⟩
      rw [h] at hcup
      rw [hcup]
      exact ⟨rfl, hewf.symm, rfl, rfl⟩
    | none =>
      rw [h] at hcup
      rw [hcup]
      exact ⟨rfl, hewf.symm, rfl, rfl⟩
  · intro r hr
    rcases List.mem_flatMap.mp hr with ⟨g, hg, hrg⟩
    rcases groupLoop_mem_spec check g.1 word_list.length word_list 0
      (dictByUser g.2) r hrg with ⟨p, hp, h1, h2, h3⟩
    obtain ⟨hkey, hval⟩ := dictByUser_entries g.2 p hp
    obtain ⟨heent, hewf⟩ := mem_sortedGroups entries g hg p.2 hval
    refine ⟨p.2, heent, ?_⟩
    unfold resultMatchesSpec
    refine ⟨by rw [h1, hkey], by rw [h2, hewf], ?_⟩
    cases hq : leastHit (check p.2.full_hash) word_list with
    | some q =>
      rw [hq] at h3
      obtain ⟨ha, hb⟩ := h3
      exact ⟨ha, by omega⟩
    | none =>
      rw [hq] at h3
      exact h3

theorem crack_results_follow_record_spec_witness :
    (1 : Nat) ≤ 1 ∧
      ((∀ r ∈ crack_by_workfactor_group_parallel demoOracle demoEntries demoCorpus 1,
          ∃ e ∈ demoEntries, resultMatchesSpec demoOracle demoCorpus e r) ∧
        (∀ r ∈ crack_by_workfactor_group demoOracle demoEntries demoCorpus,
          ∃ e ∈ demoEntries, resultMatchesSpec demoOracle demoCorpus e r)) :=
  ⟨le_refl 1, crack_results_follow_record_spec demoOracle demoEntries demoCorpus 1 (le_refl 1)⟩

/-- Claim C6: both orchestrators process the cost-factor groups in
strictly ascending workfactor order regardless of input order — the group
keys of `sortedGroups` are strictly increasing for every input, and the
emitted result lists of both the parallel and the sequential cracking runs
carry weakly increasing workfactors. -/
theorem cracking_processes_groups_ascending (check : String → String → Bool)
    (entries : List ShadowEntry) (word_list : List String) (N : Nat) :
    ((sortedGroups entries).map Prod.fst).Pairwise (fun a b => a < b) ∧
      ((crack_by_workfactor_group_parallel check entries word_list N).map
          (fun r => r.workfactor)).Pairwise (fun a b => a ≤ b) ∧
      ((crack_by_workfactor_group check entries word_list).map
          (fun r => r.workfactor)).Pairwise (fun a b => a ≤ b) := by
  have hkeys : (sortedGroups entries).map Prod.fst = sortedWfKeys entries := by
    rw [sortedGroups, List.map_map]
    have hfun : (Prod.fst ∘ fun k =>
        ((k : Int), lookupGroup (groupByWorkfactor entries) k)) = id := rfl
    rw [hfun, List.map_id]
  refine ⟨?_, ?_, ?_⟩
  · rw [hkeys]; exact sortedWfKeys_sorted entries
  · apply sorted_flatMap_wf
    · rw [hkeys]; exact sortedWfKeys_sorted entries
    · intro g _ r hr
      rcases List.mem_map.mp hr with ⟨e, _, rfl⟩
      cases h : crack_user_parallel (check e.full_hash) word_list N with
      | some p => rcases p with ⟨pw, att⟩; rfl
      | none => rfl
  · apply sorted_flatMap_wf
    · rw [hkeys]; exact sortedWfKeys_sorted entries
    · intro g _ r hr
      rcases groupLoop_mem_spec check g.1 word_list.length word_list 0
        (dictByUser g.2) r hr with ⟨p, _, _, h2, _⟩
      exact h2

/-- Claim C7: the corpus provider applied to any underlying word list and
bounds returns a sequence that is strictly sorted in the code-point
lexicographic order (hence duplicate-free), contains exactly the
lower-casings of the source words whose original length lies within the
bounds, and consists only of already-lower-cased words whose lengths lie
within the bounds.  Determinism across runs is definitional here: the
embedding is a pure function of `(word_list, min_length, max_length)`. -/
theorem corpus_provider_filtered_sorted_dedup (word_list : List String)
    (min_length max_length : Nat) :
    (get_nltk_words word_list min_length max_length).Pairwise
        (fun a b => strCmp a b = true) ∧
      (get_nltk_words word_list min_length max_length).Nodup ∧
      (∀ w, w ∈ get_nltk_words word_list min_length max_length ↔
        ∃ v ∈ word_list, min_length ≤ v.length ∧ v.length ≤ max_length ∧
          w = pyLower v) ∧
      (∀ w ∈ get_nltk_words word_list min_length max_length,
        pyLower w = w ∧ min_length ≤ w.length ∧ w.length ≤ max_length) := by
  have hperm := perm_sortBy strCmp
    (((word_list.filter
        (fun w => decide (min_length ≤ w.length) && decide (w.length ≤ max_length))).map
      pyLower).dedup)
  have hmem : ∀ w, w ∈ get_nltk_words word_list min_length max_length ↔
      ∃ v ∈ word_list, min_length ≤ v.length ∧ v.length ≤ max_length ∧
        w = pyLower v := by
    intro w
    rw [get_nltk_words, hperm.mem_iff, List.mem_dedup, List.mem_map]
    constructor
    · rintro ⟨v, hv, rfl⟩
      obtain ⟨hvmem, hvbounds⟩ := List.mem_filter.mp hv
      simp only [Bool.and_eq_true, decide_eq_true_eq] at hvbounds
      exact ⟨v, hvmem, hvbounds.1, hvbounds.2, rfl⟩
    · rintro ⟨v, hvmem, hb1, hb2, rfl⟩
      refine ⟨v, List.mem_filter.mpr ⟨hvmem, ?_⟩, rfl⟩
      simp only [Bool.and_eq_true, decide_eq_true_eq]
      exact ⟨hb1, hb2⟩
  refine ⟨?_, ?_, hmem, ?_⟩
  · exact pairwise_sortBy strCmp strCmp_trans strCmp_connex _ (List.nodup_dedup _)
  · exact hperm.nodup_iff.mpr (List.nodup_dedup _)
  · intro w hw
    rcases (hmem w).mp hw with ⟨v, _, hb1, hb2, rfl⟩
    have hlen : (pyLower v).length = v.length := by
      show (v.data.map Char.toLower).length = v.data.length
      exact List.length_map _ _
    exact ⟨pyLower_pyLower v, by omega, by omega⟩

/-- Claim C10: for every oracle, corpus and worker count `N ≥ 1`, the
single-core cracker and the parallel distributor agree exactly: they find
a password under the same conditions, and on success return the same word
and the same 1-based attempt count (elapsed time is not modelled). -/
theorem parallel_agrees_with_single_core (check : String → Bool)
    (word_list : List String) (N : Nat) (hN : 1 ≤ N) :
    crack_single_user check word_list = crack_user_parallel check word_list N := by
  rw [crack_single_user_eq, crack_user_parallel_eq check word_list N hN]

theorem parallel_agrees_with_single_core_witness :
    (1 : Nat) ≤ 2 ∧
      crack_single_user demoCheck demoCorpus = crack_user_parallel demoCheck demoCorpus 2 :=
  ⟨by decide, parallel_agrees_with_single_core demoCheck demoCorpus 2 (by decide)⟩

/-! ### Parser reduction lemmas -/

theorem splitChar_ne_nil (c : Char) : ∀ l : List Char, splitChar c l ≠ [] := by
  intro l
  cases l with
  | nil => simp [splitChar]
  | cons x xs =>
    have hunfold : splitChar c (x :: xs) =
        (match splitChar c xs with
         | [] => [[]]
         | h :: t => if x = c then [] :: h :: t else (x :: h) :: t) := rfl
    cases h : splitChar c xs with
    | nil => rw [hunfold, h]; simp
    | cons hd tl =>
      have hsx : splitChar c (x :: xs) =
          if x = c then [] :: hd :: tl else (x :: hd) :: tl := by
        rw [hunfold, h]
      rw [hsx]
      split <;> simp

theorem joinSep_splitChar (c : Char) : ∀ l : List Char, joinSep c (splitChar c l) = l := by
  intro l
  induction l with
  | nil => rfl
  | cons x xs ih =>
    have hunfold : splitChar c (x :: xs) =
        (match splitChar c xs with
         | [] => [[]]
         | h :: t => if x = c then [] :: h :: t else (x :: h) :: t) := rfl
    cases h : splitChar c xs with
    | nil => exact absurd h (splitChar_ne_nil c xs)
    | cons hd tl =>
      have hsx : splitChar c (x :: xs) =
          if x = c then [] :: hd :: tl else (x :: hd) :: tl := by
        rw [hunfold, h]
      rw [h] at ih
      rw [hsx]
      by_cases hx : x = c
      · rw [if_pos hx]
        subst hx
        simp only [joinSep, List.nil_append]
        rw [ih]
      · rw [if_neg hx]
        cases tl with
        | nil =>
          simp only [joinSep] at ih ⊢
          rw [ih]
        | cons t ts =>
          simp only [joinSep] at ih ⊢
          rw [List.cons_append, ih]

theorem joinSep_cons_exists (c : Char) (x : List Char) (ps : List (List Char)) :
    ∃ T, joinSep c (x :: ps) = x ++ T := by
  cases ps with
  | nil => exact ⟨[], by simp [joinSep]⟩
  | cons p ps' => exact ⟨c :: joinSep c (p :: ps'), rfl⟩

theorem pyStrip_not_empty_of_split (line u fh : String)
    (hsp : pySplit (pyStrip line) ':' = [u, fh]) :
    (pyStrip line).data.isEmpty = false := by
  cases hd : (pyStrip line).data with
  | nil =>
    exfalso
    have h1 : pySplit (pyStrip line) ':' = [String.mk []] := by
      rw [pySplit, hd]
      rfl
    rw [h1] at hsp
    exact absurd (congrArg List.length hsp) (by simp)
  | cons c cs => rfl

/-- Reduction of `parse_shadow_entry` once the colon split is known to
have exactly two fields. -/
theorem parse_shadow_entry_two (line u fh : String)
    (hsp : pySplit (pyStrip line) ':' = [u, fh])
    (hne : (pyStrip line).data.isEmpty = false) :
    parse_shadow_entry line =
      (if (pySplit fh '$').length < 4 then .ok none
       else
         match pyInt ((pySplit fh '$').getD 2 "") with
         | none => .error ()
         | some workfactor =>
           .ok (some { user := u, algorithm := (pySplit fh '$').getD 1 "",
                       workfactor := workfactor,
                       salt := strTake ((pySplit fh '$').getD 3 "") 22,
                       bcrypt_salt := "$" ++ (pySplit fh '$').getD 1 "" ++ "$" ++
                         (pySplit fh '$').getD 2 "" ++ "$" ++
                         strTake ((pySplit fh '$').getD 3 "") 22,
                       hash := strDrop ((pySplit fh '$').getD 3 "") 22,
                       full_hash := fh })) := by
  simp only [parse_shadow_entry]
  rw [if_neg (by simp [hne]), hsp]

/-- Claim C4 counterexample: the parser does not reject every line whose
cost field fails to be a positive integer or whose salt+hash field is
shorter than 22 characters, and a non-integer cost is not skipped but
aborts the batch.  Cost `0` (not positive) yields a record; a 5-character
salt+hash field yields a record with a truncated salt; cost `xx` raises
the uncaught `ValueError`. -/
theorem parse_rejection_counterexample :
    parse_shadow_entry "u:$2b$0$AAAAAAAAAAAAAAAAAAAAAAbb" =
      .ok (some { user := "u", algorithm := "2b", workfactor := 0,
                  salt := "AAAAAAAAAAAAAAAAAAAAAA",
                  bcrypt_salt := "$2b$0$AAAAAAAAAAAAAAAAAAAAAA", hash := "bb",
                  full_hash := "$2b$0$AAAAAAAAAAAAAAAAAAAAAAbb" }) ∧
      parse_shadow_entry "u:$2b$08$short" =
        .ok (some { user := "u", algorithm := "2b", workfactor := 8,
                    salt := "short", bcrypt_salt := "$2b$08$short", hash := "",
                    full_hash := "$2b$08$short" }) ∧
      parse_shadow_entry "u:$2b$xx$AAAAAAAAAAAAAAAAAAAAAAbb" = .error () :=
  ⟨rfl, rfl, rfl⟩

/-- Claim C4 (amended): lines lacking exactly one `:` separator, or whose
hash field has fewer than 4 `$`-delimited segments, are rejected (no
record) and skipped — the rest of the batch parses as if they were absent.
(The other two conditions of the original claim do not cause rejection:
a syntactically non-integer cost aborts the whole batch, and non-positive
costs or short salt+hash fields are accepted — see the counterexample.) -/
theorem parse_skips_structurally_malformed (line : String) (rest : List String)
    (h : (pySplit (pyStrip line) ':').length ≠ 2 ∨
      ∃ u fh, pySplit (pyStrip line) ':' = [u, fh] ∧ (pySplit fh '$').length < 4) :
    parse_shadow_entry line = .ok none ∧
      parse_lines (line :: rest) = parse_lines rest := by
  have hmain : parse_shadow_entry line = .ok none := by
    by_cases he : (pyStrip line).data.isEmpty = true
    · simp only [parse_shadow_entry]
      rw [if_pos he]
    · rcases h with h | ⟨u, fh, hsp, hlt⟩
      · simp only [parse_shadow_entry]
        rw [if_neg he]
        cases hsp : pySplit (pyStrip line) ':' with
        | nil => rfl
        | cons a tl =>
          cases tl with
          | nil => rfl
          | cons b tl2 =>
            cases tl2 with
            | nil =>
              rw [hsp] at h
              simp at h
            | cons c tl3 => rfl
      · have hne : (pyStrip line).data.isEmpty = false := eq_false_of_ne_true he
        rw [parse_shadow_entry_two line u fh hsp hne, if_pos hlt]
  refine ⟨hmain, ?_⟩
  simp only [parse_lines]
  rw [hmain]

theorem parse_skips_structurally_malformed_witness :
    (pySplit (pyStrip "nocolonhere") ':').length ≠ 2 ∧
      (parse_shadow_entry "nocolonhere" = .ok none ∧
        parse_lines ["nocolonhere"] = parse_lines []) :=
  ⟨by decide, parse_skips_structurally_malformed "nocolonhere" [] (Or.inl (by decide))⟩

/-- Claim C8 counterexample: an accepted line whose cost field has one
digit.  Re-encoding gives the 28-character `bcrypt_salt`
`$2b$8$<22-char salt>`, while the first 29 characters of the hash field
include one extra character, so the two differ. -/
theorem parse_reencode_counterexample :
    parse_shadow_entry "u:$2b$8$AAAAAAAAAAAAAAAAAAAAAAxyz" =
      .ok (some { user := "u", algorithm := "2b", workfactor := 8,
                  salt := "AAAAAAAAAAAAAAAAAAAAAA",
                  bcrypt_salt := "$2b$8$AAAAAAAAAAAAAAAAAAAAAA", hash := "xyz",
                  full_hash := "$2b$8$AAAAAAAAAAAAAAAAAAAAAAxyz" }) ∧
      strTake "$2b$8$AAAAAAAAAAAAAAAAAAAAAAxyz" 29 = "$2b$8$AAAAAAAAAAAAAAAAAAAAAAx" ∧
      "$2b$8$AAAAAAAAAAAAAAAAAAAAAA" ≠ "$2b$8$AAAAAAAAAAAAAAAAAAAAAAx" :=
  ⟨rfl, rfl, by decide⟩

theorem take_prefix_29 (a b c2 T : List Char) (ha : a.length = 2) (hb : b.length = 2)
    (hc : 22 ≤ c2.length) :
    ('$' :: (a ++ '$' :: (b ++ '$' :: (c2 ++ T)))).take 29 =
      '$' :: (a ++ '$' :: (b ++ '$' :: c2.take 22)) := by
  obtain ⟨a1, a2, rfl⟩ := List.length_eq_two.mp ha
  obtain ⟨b1, b2, rfl⟩ := List.length_eq_two.mp hb
  simp only [List.cons_append, List.nil_append]
  rw [show (29 : Nat) = 28 + 1 from rfl, List.take_succ_cons,
    show (28 : Nat) = 27 + 1 from rfl, List.take_succ_cons,
    show (27 : Nat) = 26 + 1 from rfl, List.take_succ_cons,
    show (26 : Nat) = 25 + 1 from rfl, List.take_succ_cons,
    show (25 : Nat) = 24 + 1 from rfl, List.take_succ_cons,
    show (24 : Nat) = 23 + 1 from rfl, List.take_succ_cons,
    show (23 : Nat) = 22 + 1 from rfl, List.take_succ_cons,
    List.take_append_of_le_length hc]

/-- Claim C8 (amended): for an accepted line whose hash field starts with
`$`, with a 2-character algorithm field, a 2-character cost field and a
salt+hash field of at least 22 characters (the format of every record in
the shadow file), the parser's re-encoded `bcrypt_salt`
`$<alg>$<cost>$<22-char salt>` reconstructs the algorithm, cost and salt
fields byte-identically from the original segments and equals the first
29 characters of the original hash field.  Without those width
assumptions the 29-character equation fails (see the counterexample). -/
theorem parse_reencode_roundtrip (line u fh alg costStr saltHash : String)
    (parts : List String) (n : Int)
    (hsp : pySplit (pyStrip line) ':' = [u, fh])
    (hparts : pySplit fh '$' = "" :: alg :: costStr :: saltHash :: parts)
    (hint : pyInt costStr = some n)
    (halg : alg.length = 2) (hcost : costStr.length = 2)
    (hsalt : 22 ≤ saltHash.length) :
    parse_shadow_entry line =
      .ok (some { user := u, algorithm := alg, workfactor := n,
                  salt := strTake saltHash 22,
                  bcrypt_salt := "$" ++ alg ++ "$" ++ costStr ++ "$" ++
                    strTake saltHash 22,
                  hash := strDrop saltHash 22, full_hash := fh }) ∧
      "$" ++ alg ++ "$" ++ costStr ++ "$" ++ strTake saltHash 22 = strTake fh 29 := by
  have hne : (pyStrip line).data.isEmpty = false := pyStrip_not_empty_of_split line u fh hsp
  have heval := parse_shadow_entry_two line u fh hsp hne
  have hlen4 : ¬ (pySplit fh '$').length < 4 := by rw [hparts]; simp
  have hg1 : (pySplit fh '$').getD 1 "" = alg := by rw [hparts]; rfl
  have hg2 : (pySplit fh '$').getD 2 "" = costStr := by rw [hparts]; rfl
  have hg3 : (pySplit fh '$').getD 3 "" = saltHash := by rw [hparts]; rfl
  constructor
  · rw [heval, if_neg hlen4, hg1, hg2, hg3, hint]
  · have hsc : splitChar '$' fh.data =
        [] :: alg.data :: costStr.data :: saltHash.data :: parts.map String.data := by
      have h1 : (pySplit fh '$').map String.data = splitChar '$' fh.data := by
        show ((splitChar '$' fh.data).map String.mk).map String.data = splitChar '$' fh.data
        rw [List.map_map, show (String.data ∘ String.mk) = id from rfl, List.map_id]
      rw [← h1, hparts]
      rfl
    have hj : joinSep '$'
        ([] :: alg.data :: costStr.data :: saltHash.data :: parts.map String.data) =
        fh.data := by
      rw [← hsc]
      exact joinSep_splitChar '$' fh.data
    obtain ⟨T, hT'⟩ := joinSep_cons_exists '$' saltHash.data (parts.map String.data)
    have hT : fh.data =
        '$' :: (alg.data ++ '$' :: (costStr.data ++ '$' :: (saltHash.data ++ T))) := by
      rw [← hj]
      simp only [joinSep, List.nil_append]
      rw [hT']
    apply String.ext
    show ("$" ++ alg ++ "$" ++ costStr ++ "$" ++ strTake saltHash 22).data =
      fh.data.take 29
    rw [hT, take_prefix_29 alg.data costStr.data saltHash.data T halg hcost hsalt]
    simp [String.data_append, strTake]

theorem parse_reencode_roundtrip_witness :
    pyInt "08" = some 8 ∧
      "$" ++ "2b" ++ "$" ++ "08" ++ "$" ++
          strTake "J9FW66ZdPI2nrIMcOxFYI.qx268uZn.ajhymLP/YHaAsfBGP3Fnmq" 22 =
        strTake "$2b$08$J9FW66ZdPI2nrIMcOxFYI.qx268uZn.ajhymLP/YHaAsfBGP3Fnmq" 29 :=
  ⟨by decide,
    (parse_reencode_roundtrip
      "Bilbo:$2b$08$J9FW66ZdPI2nrIMcOxFYI.qx268uZn.ajhymLP/YHaAsfBGP3Fnmq"
      "Bilbo" "$2b$08$J9FW66ZdPI2nrIMcOxFYI.qx268uZn.ajhymLP/YHaAsfBGP3Fnmq"
      "2b" "08" "J9FW66ZdPI2nrIMcOxFYI.qx268uZn.ajhymLP/YHaAsfBGP3Fnmq" [] 8
      (by decide) (by decide) (by decide) (by decide) (by decide) (by decide)).2⟩

/-- Claim C9 counterexample: a line with cost field `-3` is accepted by
the parser and yields a record whose `cost_factor` is negative, violating
the claimed `cost_factor > 0` invariant. -/
theorem parser_accepts_nonpositive_cost :
    parse_shadow_entry "u:$2b$-3$AAAAAAAAAAAAAAAAAAAAAAbb" =
      .ok (some { user := "u", algorithm := "2b", workfactor := -3,
                  salt := "AAAAAAAAAAAAAAAAAAAAAA",
                  bcrypt_salt := "$2b$-3$AAAAAAAAAAAAAAAAAAAAAA", hash := "bb",
                  full_hash := "$2b$-3$AAAAAAAAAAAAAAAAAAAAAAbb" }) ∧
      ¬ (0 : Int) < -3 :=
  ⟨rfl, by decide⟩

/-- Claim C9 (amended): the parser applies no positivity check — every
record it returns carries exactly the integer value of the line's cost
segment as its `cost_factor`, whatever its sign. -/
theorem parser_workfactor_matches_cost_field (line : String) (e : ShadowEntry)
    (h : parse_shadow_entry line = .ok (some e)) :
    pyInt ((pySplit ((pySplit (pyStrip line) ':').getD 1 "") '$').getD 2 "") =
      some e.workfactor := by
  by_cases he : (pyStrip line).data.isEmpty = true
  · exfalso
    simp only [parse_shadow_entry] at h
    rw [if_pos he] at h
    exact absurd h (by simp)
  · cases hsp : pySplit (pyStrip line) ':' with
    | nil =>
      exfalso
      simp only [parse_shadow_entry] at h
      rw [if_neg he, hsp] at h
      exact absurd h (by simp)
    | cons a tl =>
      cases tl with
      | nil =>
        exfalso
        simp only [parse_shadow_entry] at h
        rw [if_neg he, hsp] at h
        exact absurd h (by simp)
      | cons b tl2 =>
        cases tl2 with
        | cons c tl3 =>
          exfalso
          simp only [parse_shadow_entry] at h
          rw [if_neg he, hsp] at h
          exact absurd h (by simp)
        | nil =>
          have hne : (pyStrip line).data.isEmpty = false := eq_false_of_ne_true he
          rw [parse_shadow_entry_two line a b hsp hne] at h
          have hget : (([a, b] : List String).getD 1 "") = b := rfl
          rw [hget]
          split at h
          · exact absurd h (by simp)
          · split at h
            next heq => exact absurd h (by simp)
            next wf heq =>
              injection h with h'
              injection h' with h''
              rw [← h'']
              exact heq

theorem parser_workfactor_matches_cost_field_witness :
    pyInt ((pySplit ((pySplit (pyStrip "u:$2b$-3$AAAAAAAAAAAAAAAAAAAAAAbb") ':').getD 1 "")
        '$').getD 2 "") = some (-3 : Int) :=
  parser_workfactor_matches_cost_field "u:$2b$-3$AAAAAAAAAAAAAAAAAAAAAAbb"
    { user := "u", algorithm := "2b", workfactor := -3,
      salt := "AAAAAAAAAAAAAAAAAAAAAA",
      bcrypt_salt := "$2b$-3$AAAAAAAAAAAAAAAAAAAAAA", hash := "bb",
      full_hash := "$2b$-3$AAAAAAAAAAAAAAAAAAAAAAbb" } (by rfl)
